import Mathlib

/-!
Verification development for the two-tier expense extraction pipeline in
src/lib/gemini.js: the deterministic regex fallback parser (fallbackParser)
and the orchestrator (parseInput) that sequences it with the LLM extractor.

The JavaScript code is shallowly embedded: strings are lists of characters,
the JS regexes /(?:(\d+)\s+)?(\w+)/g, /(?:(\d+)\s*x\s*)?(\w+)/g and
/(?:(\d+)\s*of\s*)?(\w+)/g are modelled as executable scanners with the exact
backtracking semantics of the JS engine on these patterns, JS numbers that
can occur as quantities are modelled as rationals, and the network call of
the LLM path is an explicit oracle argument.
-/

set_option maxRecDepth 8000

/-- Left brace character, written via its code point. -/
def lbrace : Char := Char.ofNat 123

/-- Right brace character, written via its code point. -/
def rbrace : Char := Char.ofNat 125

/-- JS regex class \d = [0-9]. -/
def isDigitC (c : Char) : Bool := 48 ≤ c.toNat && c.toNat ≤ 57

/-- JS regex class \w = [A-Za-z0-9_]. -/
def isWordC (c : Char) : Bool :=
  isDigitC c || (65 ≤ c.toNat && c.toNat ≤ 90) || (97 ≤ c.toNat && c.toNat ≤ 122) ||
  c.toNat == 95

/-- JS regex class \s (ECMAScript WhiteSpace and LineTerminator code points). -/
def isSpaceC (c : Char) : Bool :=
  c.toNat == 32 || c.toNat == 9 || c.toNat == 10 || c.toNat == 13 ||
  c.toNat == 11 || c.toNat == 12 || c.toNat == 160 || c.toNat == 5760 ||
  (8192 ≤ c.toNat && c.toNat ≤ 8202) || c.toNat == 8232 || c.toNat == 8233 ||
  c.toNat == 8239 || c.toNat == 8287 || c.toNat == 12288 || c.toNat == 65279

/-- JS String.prototype.toLowerCase restricted to the characters \w can match:
it lowercases A-Z and leaves digits and underscore unchanged. -/
def jsToLower (c : Char) : Char :=
  if 65 ≤ c.toNat ∧ c.toNat ≤ 90 then Char.ofNat (c.toNat + 32) else c

/-- Numeric value of a captured \d+ group, as computed by parseInt on it. -/
def natOfDigits (ds : List Char) : Nat :=
  ds.foldl (fun n c => 10 * n + (c.toNat - 48)) 0

/-- Whether a character list starts with a \w character. -/
def headIsWord : List Char → Bool
  | [] => false
  | c :: _ => isWordC c

/-- One matchAll pass of the first pattern /(?:(\d+)\s+)?(\w+)/g.
Each produced pair is (captured quantity group, captured word group).
The fuel argument only bounds recursion; the scan consumes at least one
character per step, so fuel = length of the input is always enough.

JS backtracking on this pattern collapses to: at a position starting with a
digit, the optional group succeeds exactly when the maximal digit run is
followed by at least one whitespace character and the maximal whitespace run
is followed by a word character (shorter digit runs are followed by a digit,
which is not whitespace, and shorter space runs are followed by a space,
which is not a word character, so no other backtracking branch can succeed);
otherwise the optional group is skipped and \w+ matches greedily from the
position itself. -/
def scan1F : Nat → List Char → List (Option Nat × List Char)
  | 0, _ => []
  | _ + 1, [] => []
  | fuel + 1, c :: rest =>
    if isDigitC c then
      let ds := (c :: rest).takeWhile isDigitC
      let r1 := (c :: rest).dropWhile isDigitC
      let ss := r1.takeWhile isSpaceC
      let r2 := r1.dropWhile isSpaceC
      if 0 < ss.length ∧ headIsWord r2 then
        (some (natOfDigits ds), r2.takeWhile isWordC) :: scan1F fuel (r2.dropWhile isWordC)
      else
        (none, (c :: rest).takeWhile isWordC) :: scan1F fuel ((c :: rest).dropWhile isWordC)
    else if isWordC c then
      (none, (c :: rest).takeWhile isWordC) :: scan1F fuel ((c :: rest).dropWhile isWordC)
    else scan1F fuel rest

/-- One matchAll pass of the second pattern /(?:(\d+)\s*x\s*)?(\w+)/g.
After the digit run and an optional space run the literal x is required,
then an optional space run followed by a word character. -/
def scan2F : Nat → List Char → List (Option Nat × List Char)
  | 0, _ => []
  | _ + 1, [] => []
  | fuel + 1, c :: rest =>
    if isDigitC c then
      let ds := (c :: rest).takeWhile isDigitC
      let r1 := (c :: rest).dropWhile isDigitC
      match r1.dropWhile isSpaceC with
      | 'x' :: r3 =>
        let r4 := r3.dropWhile isSpaceC
        if headIsWord r4 then
          (some (natOfDigits ds), r4.takeWhile isWordC) :: scan2F fuel (r4.dropWhile isWordC)
        else
          (none, (c :: rest).takeWhile isWordC) :: scan2F fuel ((c :: rest).dropWhile isWordC)
      | _ =>
        (none, (c :: rest).takeWhile isWordC) :: scan2F fuel ((c :: rest).dropWhile isWordC)
    else if isWordC c then
      (none, (c :: rest).takeWhile isWordC) :: scan2F fuel ((c :: rest).dropWhile isWordC)
    else scan2F fuel rest

/-- One matchAll pass of the third pattern /(?:(\d+)\s*of\s*)?(\w+)/g. -/
def scan3F : Nat → List Char → List (Option Nat × List Char)
  | 0, _ => []
  | _ + 1, [] => []
  | fuel + 1, c :: rest =>
    if isDigitC c then
      let ds := (c :: rest).takeWhile isDigitC
      let r1 := (c :: rest).dropWhile isDigitC
      match r1.dropWhile isSpaceC with
      | 'o' :: 'f' :: r3 =>
        let r4 := r3.dropWhile isSpaceC
        if headIsWord r4 then
          (some (natOfDigits ds), r4.takeWhile isWordC) :: scan3F fuel (r4.dropWhile isWordC)
        else
          (none, (c :: rest).takeWhile isWordC) :: scan3F fuel ((c :: rest).dropWhile isWordC)
      | _ =>
        (none, (c :: rest).takeWhile isWordC) :: scan3F fuel ((c :: rest).dropWhile isWordC)
    else if isWordC c then
      (none, (c :: rest).takeWhile isWordC) :: scan3F fuel ((c :: rest).dropWhile isWordC)
    else scan3F fuel rest

/-- Matches of text.matchAll(patterns[0]). -/
def scan1 (cs : List Char) : List (Option Nat × List Char) := scan1F cs.length cs

/-- Matches of text.matchAll(patterns[1]). -/
def scan2 (cs : List Char) : List (Option Nat × List Char) := scan2F cs.length cs

/-- Matches of text.matchAll(patterns[2]). -/
def scan3 (cs : List Char) : List (Option Nat × List Char) := scan3F cs.length cs

/-- The match list actually processed by fallbackParser: the loop over the
pattern array breaks at the first pattern whose matchAll result is
non-empty. -/
def chosenMatches (cs : List Char) : List (Option Nat × List Char) :=
  if 0 < (scan1 cs).length then scan1 cs
  else if 0 < (scan2 cs).length then scan2 cs
  else scan3 cs

/-- The itemVariations object literal of fallbackParser. -/
def itemVariations : List (String × String) :=
  [("tea", "chai"), ("chip", "chips"), ("chais", "chai"), ("samosas", "samosa")]

/-- The per-match normalization of fallbackParser: lowercase the captured
word, then replace it by itemVariations[item] when that lookup is truthy.
The JS lookup itemVariations[item] consults the prototype chain, so for the
all-lowercase inherited keys "constructor" and "__proto__" it yields a
truthy non-string value; the item variable then holds a non-string that can
never equal a catalog key, which is modelled as none. -/
def normalizeWord (w : List Char) : Option String :=
  let s : String := String.mk (w.map jsToLower)
  match itemVariations.lookup s with
  | some v => some v
  | none => if s = "constructor" ∨ s = "__proto__" then none else some s

/-- One entry of a parse result: an item name with its quantity. The
quantity is rational because JS numbers on the LLM path need not be
integers. -/
structure Entry where
  item : String
  quantity : ℚ
deriving DecidableEq, Repr

/-- The match-processing loop body of fallbackParser: validItems membership
and deduplication are checked first, then the quantity policy is applied
(missing capture defaults to 1, a captured value ≤ 0 discards the match). -/
def processAux (valid : List String) : List String → List Entry →
    List (Option Nat × List Char) → List Entry
  | _, acc, [] => acc
  | found, acc, (q, w) :: rest =>
    match normalizeWord w with
    | none => processAux valid found acc rest
    | some s =>
      if s ∈ valid ∧ s ∉ found then
        match q with
        | none => processAux valid (s :: found) (acc ++ [⟨s, 1⟩]) rest
        | some n =>
          if n ≤ 0 then processAux valid found acc rest
          else processAux valid (s :: found) (acc ++ [⟨s, (n : ℚ)⟩]) rest
      else processAux valid found acc rest

/-- The built-in default catalog of fallbackParser. -/
def defaultItems : List String := ["chai", "chips", "choti", "connect", "samosa"]

/-- The validItems computation of fallbackParser: the supplied list when
non-empty, else the built-in default. -/
def effectiveItems (availableItems : List String) : List String :=
  if 0 < availableItems.length then availableItems else defaultItems

/-- The deterministic extractor fallbackParser(text, availableItems),
returning the items field of its result object. -/
def fallbackParser (text : String) (availableItems : List String) : List Entry :=
  processAux (effectiveItems availableItems) [] [] (chosenMatches text.data)

/-- Comparison definition for the single-pattern refinement claim: the
deterministic extractor restricted to the first scan pattern only, never
consulting the second and third patterns. -/
def fallbackSingle (text : String) (availableItems : List String) : List Entry :=
  processAux (effectiveItems availableItems) [] [] (scan1 text.data)

/-- Modelled from the spec, for the lexical-normalization order comparison:
"normalize the captured word via the Lexical Normalizer, then lowercase it",
where the Normalizer returns the canonical form when a synonym mapping
exists for the given token, else the token unchanged. -/
def specOrderNormalize (w : List Char) : String :=
  let s : String := String.mk w
  let n : String :=
    match itemVariations.lookup s with
    | some v => v
    | none => s
  String.mk (n.data.map jsToLower)

/-- Suffix of the reply starting at its first left brace, if any. -/
def dropToBrace : List Char → Option (List Char)
  | [] => none
  | c :: rest => if c = lbrace then some (c :: rest) else dropToBrace rest

/-- Prefix of a character list up to and including its last right brace,
if it contains one. -/
def takeToLastClose : List Char → Option (List Char)
  | [] => none
  | c :: rest =>
    match takeToLastClose rest with
    | some t => some (c :: t)
    | none => if c = rbrace then some [c] else none

/-- The JSON-span extraction content.match(/\x7b[\s\S]*\x7d/) of parseInput:
the leftmost match of that regex starts at the first left brace that has a
right brace somewhere after it, and the greedy [\s\S]* extends the match to
the last right brace of the whole reply. -/
def extractJsonSpanL (cs : List Char) : Option (List Char) :=
  match dropToBrace cs with
  | none => none
  | some [] => none
  | some (b :: rest) =>
    match takeToLastClose rest with
    | none => none
    | some t => some (b :: t)

/-- String wrapper for extractJsonSpanL. -/
def extractJsonSpanS (s : String) : Option String :=
  (extractJsonSpanL s.data).map String.mk

/-- Modelled from the spec, for the JSON-extraction comparison: "locate the
first substring that looks like a balanced JSON object (earliest left brace
to its matching closing brace)", via a brace-depth counter. -/
def balancedTo (d : Nat) : List Char → Option (List Char)
  | [] => none
  | c :: rest =>
    if c = rbrace then
      if d = 0 then some [c]
      else (balancedTo (d - 1) rest).map (c :: ·)
    else if c = lbrace then (balancedTo (d + 1) rest).map (c :: ·)
    else (balancedTo d rest).map (c :: ·)

/-- Modelled from the spec: the first balanced brace span of the reply. -/
def firstBalancedSpan (cs : List Char) : Option (List Char) :=
  match dropToBrace cs with
  | some (b :: rest) => (balancedTo 0 rest).map (b :: ·)
  | _ => none

/-- String wrapper for firstBalancedSpan. -/
def firstBalancedSpanS (s : String) : Option String :=
  (firstBalancedSpan s.data).map String.mk

/-- JSON values, the possible results of JSON.parse. -/
inductive JVal where
  | null
  | bool (b : Bool)
  | num (q : ℚ)
  | str (s : String)
  | arr (elems : List JVal)
  | obj (fields : List (String × JVal))

/-- JSON insignificant whitespace: space, tab, line feed, carriage return. -/
def skipWs : List Char → List Char
  | [] => []
  | c :: rest =>
    if c.toNat == 32 || c.toNat == 9 || c.toNat == 10 || c.toNat == 13 then skipWs rest
    else c :: rest

/-- Body of a JSON string after its opening quote: returns the decoded
characters and the remainder after the closing quote. Handles the
single-character escapes; unescaped control characters are invalid. -/
def parseStrAux : List Char → Option (List Char × List Char)
  | [] => none
  | '"' :: rest => some ([], rest)
  | '\\' :: [] => none
  | '\\' :: e :: rest2 =>
    let ec : Option Char :=
      if e = '"' then some '"'
      else if e = '\\' then some '\\'
      else if e = '/' then some '/'
      else if e = 'n' then some (Char.ofNat 10)
      else if e = 't' then some (Char.ofNat 9)
      else if e = 'r' then some (Char.ofNat 13)
      else if e = 'b' then some (Char.ofNat 8)
      else if e = 'f' then some (Char.ofNat 12)
      else none
    match ec with
    | none => none
    | some ch =>
      match parseStrAux rest2 with
      | none => none
      | some (s, r) => some (ch :: s, r)
  | c :: rest =>
    if c.toNat < 32 then none
    else
      match parseStrAux rest with
      | none => none
      | some (s, r) => some (c :: s, r)

/-- Fractional digits of a JSON number, starting at an optional dot. -/
def parseFrac : List Char → Option (List Char × List Char)
  | '.' :: f =>
    let fd := f.takeWhile isDigitC
    if fd.length = 0 then none
    else some (fd, f.dropWhile isDigitC)
  | cs => some ([], cs)

/-- Exponent of a JSON number after the e marker: sign flag and digits. -/
def parseExpTail (r : List Char) : Option ((Bool × Nat) × List Char) :=
  let p : Bool × List Char :=
    match r with
    | '+' :: t => (false, t)
    | '-' :: t => (true, t)
    | t => (false, t)
  let ed := p.2.takeWhile isDigitC
  if ed.length = 0 then none
  else some ((p.1, natOfDigits ed), p.2.dropWhile isDigitC)

/-- Exponent part of a JSON number, starting at an optional e or E. -/
def parseExp : List Char → Option ((Bool × Nat) × List Char)
  | 'e' :: r => parseExpTail r
  | 'E' :: r => parseExpTail r
  | cs => some ((false, 0), cs)

/-- Unsigned JSON number: integer part without leading zeros, optional
fraction, optional exponent. The rational value is assembled by a single
mkRat over natural-number arithmetic. -/
def parseUnsigned (cs : List Char) : Option (ℚ × List Char) :=
  match cs with
  | [] => none
  | c :: _ =>
    if isDigitC c then
      let ip := cs.takeWhile isDigitC
      let r1 := cs.dropWhile isDigitC
      if 1 < ip.length ∧ ip.headI = '0' then none
      else
        match parseFrac r1 with
        | none => none
        | some (fd, r2) =>
          match parseExp r2 with
          | none => none
          | some ((eneg, e), r3) =>
            let base : Nat := natOfDigits ip * 10 ^ fd.length + natOfDigits fd
            let v : ℚ :=
              if eneg then mkRat base (10 ^ fd.length * 10 ^ e)
              else mkRat (base * 10 ^ e) (10 ^ fd.length)
            some (v, r3)
    else none

/-- JSON number with optional leading minus sign. -/
def parseNum (cs : List Char) : Option (ℚ × List Char) :=
  match cs with
  | '-' :: r =>
    match parseUnsigned r with
    | none => none
    | some (q, rest) => some (-q, rest)
  | _ =>
    match parseUnsigned cs with
    | none => none
    | some (q, rest) => some (q, rest)

/-- Parsing mode for the fueled JSON reader: a single value, the field list
of an object after its opening brace, or the element list of an array after
its opening bracket. -/
inductive PMode where
  | val
  | fields
  | elems

/-- Fueled JSON reader modelling JSON.parse. In fields mode the result is
wrapped as JVal.obj, in elems mode as JVal.arr. Every recursive call
consumes fuel; fuel bounded below by the input length always suffices. -/
def parseCore : Nat → PMode → List Char → Option (JVal × List Char)
  | 0, _, _ => none
  | fuel + 1, PMode.val, cs0 =>
    match skipWs cs0 with
    | [] => none
    | c :: rest =>
      if c = '"' then
        match parseStrAux rest with
        | none => none
        | some (s, r) => some (JVal.str (String.mk s), r)
      else if c = lbrace then
        match skipWs rest with
        | c2 :: r2 =>
          if c2 = rbrace then some (JVal.obj [], r2)
          else parseCore fuel PMode.fields (c2 :: r2)
        | [] => none
      else if c = '[' then
        match skipWs rest with
        | c2 :: r2 =>
          if c2 = ']' then some (JVal.arr [], r2)
          else parseCore fuel PMode.elems (c2 :: r2)
        | [] => none
      else
        match c :: rest with
        | 't' :: 'r' :: 'u' :: 'e' :: r => some (JVal.bool true, r)
        | 'f' :: 'a' :: 'l' :: 's' :: 'e' :: r => some (JVal.bool false, r)
        | 'n' :: 'u' :: 'l' :: 'l' :: r => some (JVal.null, r)
        | cs2 =>
          match parseNum cs2 with
          | none => none
          | some (q, r) => some (JVal.num q, r)
  | fuel + 1, PMode.fields, cs0 =>
    match skipWs cs0 with
    | '"' :: rest =>
      match parseStrAux rest with
      | none => none
      | some (k, r1) =>
        match skipWs r1 with
        | ':' :: r2 =>
          match parseCore fuel PMode.val r2 with
          | none => none
          | some (v, r3) =>
            match skipWs r3 with
            | c4 :: r4 =>
              if c4 = ',' then
                match parseCore fuel PMode.fields r4 with
                | some (JVal.obj fs, r5) => some (JVal.obj ((String.mk k, v) :: fs), r5)
                | _ => none
              else if c4 = rbrace then some (JVal.obj [(String.mk k, v)], r4)
              else none
            | [] => none
        | _ => none
    | _ => none
  | fuel + 1, PMode.elems, cs0 =>
    match parseCore fuel PMode.val cs0 with
    | none => none
    | some (v, r1) =>
      match skipWs r1 with
      | ',' :: r2 =>
        match parseCore fuel PMode.elems r2 with
        | some (JVal.arr es, r3) => some (JVal.arr (v :: es), r3)
        | _ => none
      | ']' :: r2 => some (JVal.arr [v], r2)
      | _ => none

/-- JSON.parse: a single value followed only by whitespace. -/
def jsonParse (s : String) : Option JVal :=
  match parseCore (s.length + 1) PMode.val s.data with
  | some (v, rest) => if skipWs rest = [] then some v else none
  | none => none

/-- Last binding of a key in an object field list: JSON.parse keeps the
last of duplicate keys. -/
def lookupLast : List (String × JVal) → String → Option JVal
  | [], _ => none
  | (k, v) :: rest, key =>
    match lookupLast rest key with
    | some r => some r
    | none => if k = key then some v else none

/-- JS property access v[key] on a parsed JSON value: a field of an object,
undefined (none) otherwise. -/
def getField : JVal → String → Option JVal
  | JVal.obj fields, k => lookupLast fields k
  | _, _ => none

/-- The per-element keep condition of the validation loop of parseInput:
item.item must be truthy, item.quantity a number greater than 0, and
availableItems.includes(item.item) must hold; includes compares with strict
equality, so only string items can pass, and a truthy string is a non-empty
one. -/
def keepOf (v : JVal) (avail : List String) : Option Entry :=
  match getField v "item", getField v "quantity" with
  | some (JVal.str s), some (JVal.num q) =>
    if s ≠ "" ∧ 0 < q ∧ s ∈ avail then some ⟨s, q⟩ else none
  | _, _ => none

/-- Whether a parsed JSON value is null; the property access item.item on a
null element throws. -/
def isNullJ : JVal → Bool
  | JVal.null => true
  | _ => false

/-- The validation loop of parseInput over parsed.items: kept elements in
order; a null element makes the property access item.item throw, failing
the whole response (none). -/
def filterValidate : List JVal → List String → Option (List Entry)
  | [], _ => some []
  | v :: rest, avail =>
    if isNullJ v then none
    else
      match filterValidate rest avail with
      | none => none
      | some tail =>
        match keepOf v avail with
        | some e => some (e :: tail)
        | none => some tail

/-- The response-processing chain of parseInput after a reply text was
obtained: extract the greedy JSON span, JSON.parse it, require a parsed
items array, then validate and filter its elements. none models a thrown
error (caught by the orchestrator), some the validated item list. -/
def llmChain (content : String) (avail : List String) : Option (List Entry) :=
  match extractJsonSpanS content with
  | none => none
  | some span =>
    match jsonParse span with
    | none => none
    | some parsed =>
      match getField parsed "items" with
      | some (JVal.arr l) => filterValidate l avail
      | _ => none

/-- Outcome of the network call to the generative API, as seen by
parseInput: fail covers a missing or timed-out or non-OK response and an
absent content field; ok carries the (truthy) reply text. -/
inductive FetchOutcome where
  | fail
  | ok (content : String)

/-- Result of parseInput: a returned items list or a thrown terminal
error. -/
inductive PResult where
  | ok (items : List Entry)
  | err
deriving DecidableEq, Repr

/-- The catch block of parseInput: re-run fallbackParser; return its items
when non-empty, else throw the terminal error. -/
def recoverStep (text : String) (availableItems : List String) : PResult :=
  if 0 < (fallbackParser text availableItems).length then
    PResult.ok (fallbackParser text availableItems)
  else PResult.err

/-- The orchestrator parseInput(text, config): availableItems are the
config keys; the deterministic extractor is tried first and returned when
non-empty; otherwise the LLM path runs, its validated items are returned on
success, and any thrown error falls back to recoverStep. The boolean
records whether the LLM path was entered. -/
def parseInput (text : String) (config : List (String × ℚ)) (fetch : FetchOutcome) :
    PResult × Bool :=
  let availableItems := config.map Prod.fst
  if 0 < (fallbackParser text availableItems).length then
    (PResult.ok (fallbackParser text availableItems), false)
  else
    match fetch with
    | FetchOutcome.fail => (recoverStep text availableItems, true)
    | FetchOutcome.ok content =>
      match llmChain content availableItems with
      | none => (recoverStep text availableItems, true)
      | some vs => (PResult.ok vs, true)

example : fallbackParser "2 chai" ["chai"] = [⟨"chai", 2⟩] := by decide
example : fallbackParser "give me 3 chips" ["chai", "chips"] = [⟨"chips", 3⟩] := by decide
example : fallbackParser "2 chai and 3 chai" [] = [⟨"chai", 2⟩] := by decide
example : fallbackParser "0 chai" [] = [] := by decide
example : fallbackParser "2 x chai" [] = [⟨"chai", 1⟩] := by decide
example : fallbackParser "TEA" [] = [⟨"chai", 1⟩] := by decide
example : fallbackParser "just checking" ["chai"] = [] := by decide
example : fallbackParser "unknown_item and 2 chai" ["chai"] = [⟨"chai", 2⟩] := by decide

/-! Helper lemmas about the match-processing loop. -/

theorem isWordC_of_digit {c : Char} (h : isDigitC c = true) : isWordC c = true := by
  simp [isWordC, h]

theorem mem_processAux_acc (valid : List String) (ms : List (Option Nat × List Char)) :
    ∀ found acc, ∀ e ∈ acc, e ∈ processAux valid found acc ms := by
  induction ms with
  | nil =>
    intro found acc e he
    simpa [processAux] using he
  | cons m rest ih =>
    intro found acc e he
    obtain ⟨q, w⟩ := m
    cases hn : normalizeWord w with
    | none =>
      simp only [processAux, hn]
      exact ih found acc e he
    | some s =>
      by_cases hc : s ∈ valid ∧ s ∉ found
      · cases q with
        | none =>
          simp only [processAux, hn, if_pos hc]
          exact ih _ _ e (by simp [he])
        | some n =>
          by_cases hq : n ≤ 0
          · simp only [processAux, hn, if_pos hc, if_pos hq]
            exact ih _ _ e he
          · simp only [processAux, hn, if_pos hc, if_neg hq]
            exact ih _ _ e (by simp [he])
      · simp only [processAux, hn, if_neg hc]
        exact ih _ _ e he

theorem processAux_sound (valid : List String) (ms : List (Option Nat × List Char)) :
    ∀ found acc, ∀ e ∈ processAux valid found acc ms,
      e ∈ acc ∨ (e.item ∈ valid ∧ ∃ n : ℕ, 0 < n ∧ e.quantity = (n : ℚ)) := by
  induction ms with
  | nil =>
    intro found acc e he
    left
    simpa [processAux] using he
  | cons m rest ih =>
    intro found acc e he
    obtain ⟨q, w⟩ := m
    cases hn : normalizeWord w with
    | none =>
      simp only [processAux, hn] at he
      exact ih _ _ e he
    | some s =>
      by_cases hc : s ∈ valid ∧ s ∉ found
      · cases q with
        | none =>
          simp only [processAux, hn, if_pos hc] at he
          rcases ih _ _ e he with h | h
          · rcases List.mem_append.1 h with h' | h'
            · exact Or.inl h'
            · right
              have hes : e = Entry.mk s 1 := by simpa using h'
              subst hes
              exact ⟨hc.1, 1, Nat.one_pos, by norm_num⟩
          · exact Or.inr h
        | some n =>
          by_cases hq : n ≤ 0
          · simp only [processAux, hn, if_pos hc, if_pos hq] at he
            exact ih _ _ e he
          · simp only [processAux, hn, if_pos hc, if_neg hq] at he
            rcases ih _ _ e he with h | h
            · rcases List.mem_append.1 h with h' | h'
              · exact Or.inl h'
              · right
                have hes : e = Entry.mk s (n : ℚ) := by simpa using h'
                subst hes
                exact ⟨hc.1, n, Nat.pos_of_ne_zero (by omega), rfl⟩
            · exact Or.inr h
      · simp only [processAux, hn, if_neg hc] at he
        exact ih _ _ e he

theorem processAux_nodup (valid : List String) (ms : List (Option Nat × List Char)) :
    ∀ found acc, (∀ e ∈ acc, e.item ∈ found) → (acc.map Entry.item).Nodup →
      ((processAux valid found acc ms).map Entry.item).Nodup := by
  induction ms with
  | nil =>
    intro found acc _ hnd
    simpa [processAux] using hnd
  | cons m rest ih =>
    intro found acc hsub hnd
    obtain ⟨q, w⟩ := m
    cases hn : normalizeWord w with
    | none =>
      simp only [processAux, hn]
      exact ih found acc hsub hnd
    | some s =>
      have hpush : ∀ x : ℚ, (∀ e ∈ acc ++ [Entry.mk s x], e.item ∈ s :: found) ∧
          (((acc ++ [Entry.mk s x]).map Entry.item).Nodup ∨ s ∈ found) := by
        intro x
        constructor
        · intro e he
          rcases List.mem_append.1 he with h' | h'
          · exact List.mem_cons_of_mem _ (hsub e h')
          · have hex : e = Entry.mk s x := by simpa using h'
            subst hex
            exact List.mem_cons_self _ _
        · by_cases hf : s ∈ found
          · exact Or.inr hf
          · left
            rw [List.map_append]
            simp only [List.map_cons, List.map_nil]
            rw [List.nodup_append]
            refine ⟨hnd, List.nodup_singleton s, ?_⟩
            intro a ha hb
            have has : a = s := by simpa using hb
            subst has
            rcases List.mem_map.1 ha with ⟨e, he, hei⟩
            exact hf (hei ▸ hsub e he)
      by_cases hc : s ∈ valid ∧ s ∉ found
      · cases q with
        | none =>
          simp only [processAux, hn, if_pos hc]
          refine ih _ _ (hpush 1).1 ?_
          rcases (hpush 1).2 with h | h
          · exact h
          · exact absurd h hc.2
        | some n =>
          by_cases hq : n ≤ 0
          · simp only [processAux, hn, if_pos hc, if_pos hq]
            exact ih _ _ hsub hnd
          · simp only [processAux, hn, if_pos hc, if_neg hq]
            refine ih _ _ (hpush (n : ℚ)).1 ?_
            rcases (hpush (n : ℚ)).2 with h | h
            · exact h
            · exact absurd h hc.2
      · simp only [processAux, hn, if_neg hc]
        exact ih _ _ hsub hnd

theorem processAux_drop (valid found : List String) (acc : List Entry)
    (q : Option Nat) (w : List Char) (rest : List (Option Nat × List Char))
    (h : ∀ s, normalizeWord w = some s → s ∉ valid ∨ s ∈ found) :
    processAux valid found acc ((q, w) :: rest) = processAux valid found acc rest := by
  cases hn : normalizeWord w with
  | none => simp only [processAux, hn]
  | some s =>
    simp only [processAux, hn]
    have hc : ¬ (s ∈ valid ∧ s ∉ found) := by
      rcases h s hn with h' | h'
      · exact fun hc => h' hc.1
      · exact fun hc => hc.2 h'
    rw [if_neg hc]

theorem processAux_all_invalid (valid : List String) (ms : List (Option Nat × List Char)) :
    ∀ found acc, (∀ m ∈ ms, ∀ s, normalizeWord m.2 = some s → s ∉ valid) →
      processAux valid found acc ms = acc := by
  induction ms with
  | nil => intro found acc _; rfl
  | cons m rest ih =>
    intro found acc h
    obtain ⟨q, w⟩ := m
    rw [processAux_drop valid found acc q w rest
      (fun s hs => Or.inl (h (q, w) (List.mem_cons_self _ _) s hs))]
    exact ih found acc (fun m hm => h m (List.mem_cons_of_mem _ hm))

/-- C3: when the deterministic extractor reaches a recognizable token (a
match whose normalized word is a catalog key, not yet accepted in this
call), it accepts the item with quantity 1 when no integer was captured,
with the captured integer when that is positive, and a captured quantity of
0 makes the match contribute nothing at all (no defaulting): processing
continues exactly as if the match were absent. -/
theorem fallbackQuantityPolicy_c3 (valid found : List String) (acc : List Entry)
    (w : List Char) (rest : List (Option Nat × List Char)) (q : Nat) (s : String)
    (hnorm : normalizeWord w = some s) (hv : s ∈ valid) (hf : s ∉ found) :
    (Entry.mk s 1 ∈ processAux valid found acc ((none, w) :: rest)) ∧
    (0 < q → Entry.mk s (q : ℚ) ∈ processAux valid found acc ((some q, w) :: rest)) ∧
    (processAux valid found acc ((some 0, w) :: rest) = processAux valid found acc rest) := by
  refine ⟨?_, ?_, ?_⟩
  · simp only [processAux, hnorm, if_pos (And.intro hv hf)]
    exact mem_processAux_acc valid rest _ _ _ (by simp)
  · intro hq
    simp only [processAux, hnorm, if_pos (And.intro hv hf), if_neg (by omega : ¬ q ≤ 0)]
    exact mem_processAux_acc valid rest _ _ _ (by simp)
  · simp only [processAux, hnorm, if_pos (And.intro hv hf), if_pos (Nat.le_refl 0)]

/-- Witness for C3 at concrete inputs: the token chai in a singleton
catalog, with no captured quantity, with captured quantity 2, and with
captured quantity 0. -/
theorem fallbackQuantityPolicy_c3_witness :
    (Entry.mk "chai" 1 ∈ processAux ["chai"] [] [] [(none, "chai".data)]) ∧
    (Entry.mk "chai" (2 : ℚ) ∈ processAux ["chai"] [] [] [(some 2, "chai".data)]) ∧
    (processAux ["chai"] [] [] [(some 0, "chai".data)] = processAux ["chai"] [] [] []) := by
  have h := fallbackQuantityPolicy_c3 ["chai"] [] [] "chai".data [] 2 "chai"
    (by decide) (by decide) (by decide)
  exact ⟨h.1, h.2.1 (by decide), h.2.2⟩

/-! Helper lemmas about the three scanners. -/

theorem scan1F_nil_of_noword : ∀ fuel cs, (∀ c ∈ cs, isWordC c = false) →
    scan1F fuel cs = [] := by
  intro fuel
  induction fuel with
  | zero => intro cs _; rfl
  | succ fuel ih =>
    intro cs h
    cases cs with
    | nil => rfl
    | cons c rest =>
      have hw : isWordC c = false := h c (List.mem_cons_self _ _)
      have hd : isDigitC c = false := by
        cases hdg : isDigitC c
        · rfl
        · exact absurd (isWordC_of_digit hdg) (by simp [hw])
      simp only [scan1F, hd, hw]
      simp only [Bool.false_eq_true, if_false]
      exact ih rest (fun c' hc' => h c' (List.mem_cons_of_mem _ hc'))

theorem scan2F_nil_of_noword : ∀ fuel cs, (∀ c ∈ cs, isWordC c = false) →
    scan2F fuel cs = [] := by
  intro fuel
  induction fuel with
  | zero => intro cs _; rfl
  | succ fuel ih =>
    intro cs h
    cases cs with
    | nil => rfl
    | cons c rest =>
      have hw : isWordC c = false := h c (List.mem_cons_self _ _)
      have hd : isDigitC c = false := by
        cases hdg : isDigitC c
        · rfl
        · exact absurd (isWordC_of_digit hdg) (by simp [hw])
      simp only [scan2F, hd, hw]
      simp only [Bool.false_eq_true, if_false]
      exact ih rest (fun c' hc' => h c' (List.mem_cons_of_mem _ hc'))

theorem scan3F_nil_of_noword : ∀ fuel cs, (∀ c ∈ cs, isWordC c = false) →
    scan3F fuel cs = [] := by
  intro fuel
  induction fuel with
  | zero => intro cs _; rfl
  | succ fuel ih =>
    intro cs h
    cases cs with
    | nil => rfl
    | cons c rest =>
      have hw : isWordC c = false := h c (List.mem_cons_self _ _)
      have hd : isDigitC c = false := by
        cases hdg : isDigitC c
        · rfl
        · exact absurd (isWordC_of_digit hdg) (by simp [hw])
      simp only [scan3F, hd, hw]
      simp only [Bool.false_eq_true, if_false]
      exact ih rest (fun c' hc' => h c' (List.mem_cons_of_mem _ hc'))

theorem noword_of_scan1F_nil : ∀ fuel cs, cs.length ≤ fuel → scan1F fuel cs = [] →
    ∀ c ∈ cs, isWordC c = false := by
  intro fuel
  induction fuel with
  | zero =>
    intro cs hle _ c hc
    cases cs with
    | nil => cases hc
    | cons c0 rest => simp at hle
  | succ fuel ih =>
    intro cs hle hnil c hc
    cases cs with
    | nil => cases hc
    | cons c0 rest =>
      cases hd : isDigitC c0 with
      | true =>
        exfalso
        simp only [scan1F, hd, if_true] at hnil
        split at hnil
        · cases hnil
        · cases hnil
      | false =>
        cases hw : isWordC c0 with
        | true =>
          exfalso
          simp only [scan1F, hd, hw, Bool.false_eq_true, if_false, if_true] at hnil
          cases hnil
        | false =>
          rcases List.mem_cons.1 hc with h' | h'
          · rw [h']; exact hw
          · refine ih rest ?_ ?_ c h'
            · have := hle
              simp only [List.length_cons] at this
              omega
            · simpa only [scan1F, hd, hw, Bool.false_eq_true, if_false] using hnil

theorem noword_of_scan1_nil (cs : List Char) (h : scan1 cs = []) :
    ∀ c ∈ cs, isWordC c = false :=
  noword_of_scan1F_nil cs.length cs (Nat.le_refl _) h

theorem chosenMatches_eq_scan1 (cs : List Char) : chosenMatches cs = scan1 cs := by
  cases h1 : scan1 cs with
  | cons m ms =>
    unfold chosenMatches
    rw [h1]
    simp
  | nil =>
    have hnw := noword_of_scan1_nil cs h1
    have h2 : scan2 cs = [] := scan2F_nil_of_noword cs.length cs hnw
    have h3 : scan3 cs = [] := scan3F_nil_of_noword cs.length cs hnw
    unfold chosenMatches
    rw [h1, h2, h3]
    simp

/-- C9: the deterministic extractor is a total function of (text, catalog)
in this embedding (so it never throws and re-running it yields an identical
ordered result); moreover an unparseable text (one without a single word
character, so that no scan pattern matches) yields the empty result, and so
does an item-free text (one none of whose scanned tokens normalizes to an
effective catalog key). -/
theorem fallbackTotal_c9 :
    (∀ (text : String) (avail : List String), (∀ c ∈ text.data, isWordC c = false) →
      fallbackParser text avail = []) ∧
    (∀ (text : String) (avail : List String),
      (∀ m ∈ chosenMatches text.data, ∀ s, normalizeWord m.2 = some s →
        s ∉ effectiveItems avail) →
      fallbackParser text avail = []) := by
  constructor
  · intro text avail h
    have h1 : scan1 text.data = [] := scan1F_nil_of_noword text.data.length text.data h
    unfold fallbackParser
    rw [chosenMatches_eq_scan1, h1]
    rfl
  · intro text avail h
    exact processAux_all_invalid (effectiveItems avail) (chosenMatches text.data) [] [] h

/-- Witness for C9: a text with no word characters, and a text whose only
token does not normalize into the catalog. -/
theorem fallbackTotal_c9_witness :
    fallbackParser "?!?" ["chai"] = [] ∧ fallbackParser "hello" ["chai"] = [] := by
  constructor
  · exact fallbackTotal_c9.1 "?!?" ["chai"] (by decide)
  · apply fallbackTotal_c9.2 "hello" ["chai"]
    intro m hm s hs
    have hcm : chosenMatches "hello".data = [(none, "hello".data)] := by decide
    rw [hcm] at hm
    have hm' : m = (none, "hello".data) := by simpa using hm
    subst hm'
    dsimp only at hs
    have hn : normalizeWord "hello".data = some "hello" := by decide
    rw [hn] at hs
    injection hs with h
    subst h
    decide

/-- C10: the deterministic extractor is equivalent to a parser using only
the first scan pattern (the second and third patterns never determine the
result); the first pattern produces at least one match on any text
containing a word character; and on the phrasing 2 x chai the digit
attaches to the token x, so the result is chai with default quantity 1
rather than 2. -/
theorem singlePattern_c10 :
    (∀ (text : String) (avail : List String),
      fallbackParser text avail = fallbackSingle text avail) ∧
    (∀ cs : List Char, (∃ c ∈ cs, isWordC c = true) → scan1 cs ≠ []) ∧
    (scan1 "2 x chai".data = [(some 2, ['x']), (none, ['c', 'h', 'a', 'i'])]) ∧
    (fallbackParser "2 x chai" [] = [Entry.mk "chai" 1]) := by
  refine ⟨?_, ?_, by decide, by decide⟩
  · intro text avail
    unfold fallbackParser fallbackSingle
    rw [chosenMatches_eq_scan1]
  · intro cs hex hnil
    obtain ⟨c, hc, hw⟩ := hex
    have := noword_of_scan1_nil cs hnil c hc
    rw [hw] at this
    cases this

/-- Witness for C10 at concrete inputs. -/
theorem singlePattern_c10_witness :
    fallbackParser "2 x chai" ["chai"] = fallbackSingle "2 x chai" ["chai"] ∧
    scan1 "a".data ≠ [] :=
  ⟨singlePattern_c10.1 "2 x chai" ["chai"],
   singlePattern_c10.2.1 "a".data ⟨'a', by decide, by decide⟩⟩

/-- C1: when the deterministic extractor returns a non-empty item list, the
orchestrator returns exactly that result, whatever the network oracle would
do, and the LLM path is never entered (the flag is false). -/
theorem parseInput_fastPath_c1 (text : String) (config : List (String × ℚ))
    (fetch : FetchOutcome) (h : fallbackParser text (config.map Prod.fst) ≠ []) :
    parseInput text config fetch =
      (PResult.ok (fallbackParser text (config.map Prod.fst)), false) := by
  unfold parseInput
  rw [if_pos (List.length_pos.2 h)]

/-- Witness for C1: the text 2 chai with the catalog containing chai and a
failing network oracle. -/
theorem parseInput_fastPath_c1_witness :
    fallbackParser "2 chai" ([("chai", (10 : ℚ))].map Prod.fst) ≠ [] ∧
    parseInput "2 chai" [("chai", 10)] FetchOutcome.fail =
      (PResult.ok (fallbackParser "2 chai" ([("chai", (10 : ℚ))].map Prod.fst)), false) :=
  ⟨by decide, parseInput_fastPath_c1 "2 chai" [("chai", 10)] FetchOutcome.fail (by decide)⟩

/-! Helper lemmas about the LLM-path validation and the orchestrator. -/

theorem keepOf_sound (v : JVal) (avail : List String) (e : Entry)
    (h : keepOf v avail = some e) : 0 < e.quantity ∧ e.item ∈ avail := by
  unfold keepOf at h
  split at h
  · rename_i s q hitem hquant
    split at h
    · rename_i hcond
      obtain rfl : Entry.mk s q = e := Option.some.inj h
      exact ⟨hcond.2.1, hcond.2.2⟩
    · cases h
  · cases h

theorem filterValidate_sound : ∀ (l : List JVal) (avail : List String) (vs : List Entry),
    filterValidate l avail = some vs → ∀ e ∈ vs, 0 < e.quantity ∧ e.item ∈ avail := by
  intro l
  induction l with
  | nil =>
    intro avail vs h e he
    simp only [filterValidate] at h
    obtain rfl : ([] : List Entry) = vs := Option.some.inj h
    cases he
  | cons v rest ih =>
    intro avail vs h e he
    simp only [filterValidate] at h
    split at h
    · cases h
    · split at h
      · cases h
      · rename_i tail htail
        split at h
        · rename_i e0 hkeep
          obtain rfl : e0 :: tail = vs := Option.some.inj h
          rcases List.mem_cons.1 he with rfl | h'
          · exact keepOf_sound v avail e hkeep
          · exact ih avail tail htail e h'
        · obtain rfl : tail = vs := Option.some.inj h
          exact ih avail tail htail e he

theorem llmChain_sound (content : String) (avail : List String) (vs : List Entry)
    (h : llmChain content avail = some vs) :
    ∀ e ∈ vs, 0 < e.quantity ∧ e.item ∈ avail := by
  unfold llmChain at h
  split at h
  · cases h
  · split at h
    · cases h
    · split at h
      · exact filterValidate_sound _ _ _ h
      · cases h

theorem parseInput_ok_cases (text : String) (config : List (String × ℚ))
    (fetch : FetchOutcome) (l : List Entry) (b : Bool)
    (h : parseInput text config fetch = (PResult.ok l, b)) :
    l = fallbackParser text (config.map Prod.fst) ∨
    ∃ content, fetch = FetchOutcome.ok content ∧
      llmChain content (config.map Prod.fst) = some l := by
  cases fetch with
  | fail =>
    simp only [parseInput] at h
    split at h
    · rw [Prod.mk.injEq] at h
      obtain ⟨h1, _⟩ := h
      injection h1 with h1
      exact Or.inl h1.symm
    · unfold recoverStep at h
      rw [Prod.mk.injEq] at h
      obtain ⟨h1, _⟩ := h
      split at h1
      · injection h1 with h1
        exact Or.inl h1.symm
      · exact PResult.noConfusion h1
  | ok content =>
    simp only [parseInput] at h
    split at h
    · rw [Prod.mk.injEq] at h
      obtain ⟨h1, _⟩ := h
      injection h1 with h1
      exact Or.inl h1.symm
    · split at h
      · unfold recoverStep at h
        rw [Prod.mk.injEq] at h
        obtain ⟨h1, _⟩ := h
        split at h1
        · injection h1 with h1
          exact Or.inl h1.symm
        · exact PResult.noConfusion h1
      · rename_i vs hvs
        rw [Prod.mk.injEq] at h
        obtain ⟨h1, _⟩ := h
        injection h1 with h1
        exact Or.inr ⟨content, rfl, h1 ▸ hvs⟩

theorem fallback_quantity_nat (text : String) (avail : List String) :
    ∀ e ∈ fallbackParser text avail, ∃ n : ℕ, 0 < n ∧ e.quantity = (n : ℚ) := by
  intro e he
  rcases processAux_sound _ _ _ _ e he with h | h
  · cases h
  · exact h.2

/-- C5 counterexample: a structurally valid LLM reply carrying the
non-integer quantity 2.5 passes validation unchanged, so the orchestrator
returns an entry whose quantity is a positive number but not an integer. -/
theorem parseInput_nonInteger_counterexample_c5 :
    parseInput "just checking" [("chai", 10)]
      (FetchOutcome.ok "\x7b\"items\":[\x7b\"item\":\"chai\",\"quantity\":2.5\x7d]\x7d") =
      (PResult.ok [Entry.mk "chai" (mkRat 5 2)], true) ∧
    ¬ ∃ n : ℕ, mkRat 5 2 = (n : ℚ) := by
  constructor
  · decide
  · rintro ⟨n, hn⟩
    have hd : (mkRat 5 2).den = 2 := rfl
    rw [hn, Rat.den_natCast] at hd
    omega

/-- C5 amended: every quantity produced by the deterministic extractor is a
positive natural number, and every quantity in any ok result of the
orchestrator, on either path, is a positive number; integrality is not
enforced on the LLM path. -/
theorem quantityPositivity_c5_amended :
    (∀ (text : String) (avail : List String), ∀ e ∈ fallbackParser text avail,
      ∃ n : ℕ, 0 < n ∧ e.quantity = (n : ℚ)) ∧
    (∀ (text : String) (config : List (String × ℚ)) (fetch : FetchOutcome)
      (l : List Entry) (b : Bool), parseInput text config fetch = (PResult.ok l, b) →
      ∀ e ∈ l, 0 < e.quantity) := by
  constructor
  · exact fallback_quantity_nat
  · intro text config fetch l b h e he
    rcases parseInput_ok_cases _ _ _ _ _ h with h' | ⟨content, _, hc⟩
    · subst h'
      obtain ⟨n, hn, hq⟩ := fallback_quantity_nat text (config.map Prod.fst) e he
      rw [hq]
      exact_mod_cast hn
    · exact (llmChain_sound _ _ _ hc e he).1

/-- Witness for C5 amended at concrete inputs. -/
theorem quantityPositivity_c5_amended_witness :
    (∃ n : ℕ, 0 < n ∧ (Entry.mk "chai" 2).quantity = (n : ℚ)) ∧
    0 < (Entry.mk "chai" (2 : ℚ)).quantity := by
  constructor
  · exact quantityPositivity_c5_amended.1 "2 chai" ["chai"] (Entry.mk "chai" 2) (by decide)
  · exact quantityPositivity_c5_amended.2 "2 chai" [("chai", 10)] FetchOutcome.fail
      [Entry.mk "chai" 2] false (by decide) (Entry.mk "chai" 2) (by decide)

/-- C8: with an empty (or absent) catalog the deterministic extractor only
ever produces the five built-in default item names; with a non-empty
catalog, every entry of any ok orchestrator result, on either path, names a
catalog key. -/
theorem catalogUniverse_c8 :
    (∀ text : String, ∀ e ∈ fallbackParser text [], e.item ∈ defaultItems) ∧
    (∀ (text : String) (config : List (String × ℚ)) (fetch : FetchOutcome)
      (l : List Entry) (b : Bool), config.map Prod.fst ≠ [] →
      parseInput text config fetch = (PResult.ok l, b) →
      ∀ e ∈ l, e.item ∈ config.map Prod.fst) := by
  constructor
  · intro text e he
    rcases processAux_sound _ _ _ _ e he with h | h
    · cases h
    · simpa [effectiveItems] using h.1
  · intro text config fetch l b hk h e he
    rcases parseInput_ok_cases _ _ _ _ _ h with h' | ⟨content, _, hc⟩
    · subst h'
      rcases processAux_sound _ _ _ _ e he with h'' | h''
      · cases h''
      · have heff : effectiveItems (config.map Prod.fst) = config.map Prod.fst := by
          unfold effectiveItems
          rw [if_pos (List.length_pos.2 hk)]
        rw [heff] at h''
        exact h''.1
    · exact (llmChain_sound _ _ _ hc e he).2

/-- Witness for C8 at concrete inputs. -/
theorem catalogUniverse_c8_witness :
    (Entry.mk "chai" 1).item ∈ defaultItems ∧
    (Entry.mk "chai" 2).item ∈ [("chai", (10 : ℚ))].map Prod.fst := by
  constructor
  · exact catalogUniverse_c8.1 "chai please" (Entry.mk "chai" 1) (by decide)
  · exact catalogUniverse_c8.2 "2 chai" [("chai", 10)] FetchOutcome.fail
      [Entry.mk "chai" 2] false (by decide) (by decide) (Entry.mk "chai" 2) (by decide)

/-- C4 counterexample: a structurally valid LLM reply naming chai twice
passes validation unchanged, so the orchestrator returns two entries for
the same item name on the LLM path — the result is not deduplicated. -/
theorem parseInput_dup_counterexample_c4 :
    parseInput "just checking" [("chai", 10)]
      (FetchOutcome.ok
        "\x7b\"items\":[\x7b\"item\":\"chai\",\"quantity\":2\x7d,\x7b\"item\":\"chai\",\"quantity\":3\x7d]\x7d") =
      (PResult.ok [Entry.mk "chai" 2, Entry.mk "chai" 3], true) ∧
    ¬ (([Entry.mk "chai" (2 : ℚ), Entry.mk "chai" (3 : ℚ)].map Entry.item).Nodup) := by
  constructor
  · decide
  · decide

/-- C4 amended: the deterministic extractor deduplicates (its result has at
most one entry per distinct item name, keeping the first accepted
occurrence), and a match whose normalized word was already accepted is
dropped, not accumulated; the LLM path performs no deduplication. -/
theorem dedup_c4_amended :
    (∀ (text : String) (avail : List String),
      ((fallbackParser text avail).map Entry.item).Nodup) ∧
    (∀ (valid found : List String) (acc : List Entry) (q : Option Nat) (w : List Char)
      (rest : List (Option Nat × List Char)) (s : String),
      normalizeWord w = some s → s ∈ found →
      processAux valid found acc ((q, w) :: rest) = processAux valid found acc rest) := by
  constructor
  · intro text avail
    exact processAux_nodup _ _ [] [] (fun e he => absurd he (List.not_mem_nil e)) List.nodup_nil
  · intro valid found acc q w rest s hn hf
    refine processAux_drop valid found acc q w rest ?_
    intro s' hs'
    rw [hn] at hs'
    injection hs' with h
    subst h
    exact Or.inr hf

/-- Witness for C4 amended at concrete inputs. -/
theorem dedup_c4_amended_witness :
    ((fallbackParser "2 chai and 3 chai" ["chai"]).map Entry.item).Nodup ∧
    processAux ["chai"] ["chai"] [] [(some 5, "chai".data)] =
      processAux ["chai"] ["chai"] [] [] :=
  ⟨dedup_c4_amended.1 "2 chai and 3 chai" ["chai"],
   dedup_c4_amended.2 ["chai"] ["chai"] [] (some 5) "chai".data [] "chai"
     (by decide) (by decide)⟩

/-- C2 counterexample: on a text the deterministic extractor cannot parse,
an LLM reply that is structurally valid but carries an empty items list is
returned as-is — the orchestrator hands an empty item list to its caller
instead of re-running the deterministic extractor and raising the terminal
error. -/
theorem parseInput_emptyReturn_counterexample_c2 :
    parseInput "just checking" [("chai", 10)] (FetchOutcome.ok "\x7b\"items\": []\x7d") =
      (PResult.ok [], true) := by
  decide

/-- C2 amended: when the deterministic extractor is empty, a thrown LLM
failure (transport failure, or any reply the response chain rejects) leads
to the recovery re-run and, that being empty too, to the single terminal
error; but when the LLM reply passes validation its item list is returned
as-is, even when empty. -/
theorem parseInput_recovery_c2_amended :
    (∀ (text : String) (config : List (String × ℚ)),
      fallbackParser text (config.map Prod.fst) = [] →
      parseInput text config FetchOutcome.fail = (PResult.err, true)) ∧
    (∀ (text : String) (config : List (String × ℚ)) (content : String),
      fallbackParser text (config.map Prod.fst) = [] →
      llmChain content (config.map Prod.fst) = none →
      parseInput text config (FetchOutcome.ok content) = (PResult.err, true)) ∧
    (∀ (text : String) (config : List (String × ℚ)) (content : String) (l : List Entry),
      fallbackParser text (config.map Prod.fst) = [] →
      llmChain content (config.map Prod.fst) = some l →
      parseInput text config (FetchOutcome.ok content) = (PResult.ok l, true)) := by
  refine ⟨?_, ?_, ?_⟩
  · intro text config h
    simp only [parseInput]
    rw [if_neg (by rw [h]; simp)]
    unfold recoverStep
    rw [if_neg (by rw [h]; simp)]
  · intro text config content h hc
    simp only [parseInput]
    rw [if_neg (by rw [h]; simp)]
    simp only [hc]
    unfold recoverStep
    rw [if_neg (by rw [h]; simp)]
  · intro text config content l h hc
    simp only [parseInput]
    rw [if_neg (by rw [h]; simp)]
    simp only [hc]

/-- Witness for C2 amended at concrete inputs. -/
theorem parseInput_recovery_c2_amended_witness :
    parseInput "hello" [("chai", (10 : ℚ))] FetchOutcome.fail = (PResult.err, true) ∧
    parseInput "hello" [("chai", 10)] (FetchOutcome.ok "no json here") = (PResult.err, true) ∧
    parseInput "hello" [("chai", 10)]
      (FetchOutcome.ok "\x7b\"items\":[\x7b\"item\":\"chai\",\"quantity\":2\x7d]\x7d") =
      (PResult.ok [Entry.mk "chai" 2], true) :=
  ⟨parseInput_recovery_c2_amended.1 "hello" [("chai", 10)] (by decide),
   parseInput_recovery_c2_amended.2.1 "hello" [("chai", 10)] "no json here"
     (by decide) (by decide),
   parseInput_recovery_c2_amended.2.2 "hello" [("chai", 10)]
     "\x7b\"items\":[\x7b\"item\":\"chai\",\"quantity\":2\x7d]\x7d" [Entry.mk "chai" 2]
     (by decide) (by decide)⟩

/-- C6 counterexample: on the mixed-case surface form TEA the code
(lowercase first, then synonym lookup) yields chai, whereas the spec order
(synonym lookup on the captured word, then lowercase) yields tea — the
synonym table is keyed on lowercase tokens, so TEA misses it. Hence the
extractor accepts TEA against the default catalog, which the spec order
would not. -/
theorem normalizeOrder_counterexample_c6 :
    normalizeWord "TEA".data = some "chai" ∧
    specOrderNormalize "TEA".data = "tea" ∧
    normalizeWord "TEA".data ≠ some (specOrderNormalize "TEA".data) ∧
    fallbackParser "TEA" [] = [Entry.mk "chai" 1] := by
  refine ⟨by decide, by decide, by decide, by decide⟩

/-- C6 amended: each captured word is first lowercased and then normalized
via the synonym table, with the normalized form (and only it) checked for
catalog membership: a match whose normalized word is not an effective
catalog key contributes nothing. In particular the mixed-case form TEA is
lowercased to tea and then mapped to chai. -/
theorem normalizeOrder_c6_amended :
    (fallbackParser "TEA" [] = [Entry.mk "chai" 1]) ∧
    (∀ (valid found : List String) (acc : List Entry) (q : Option Nat) (w : List Char)
      (rest : List (Option Nat × List Char)) (s : String),
      normalizeWord w = some s → s ∉ valid →
      processAux valid found acc ((q, w) :: rest) = processAux valid found acc rest) := by
  constructor
  · decide
  · intro valid found acc q w rest s hn hv
    refine processAux_drop valid found acc q w rest ?_
    intro s' hs'
    rw [hn] at hs'
    injection hs' with h
    subst h
    exact Or.inl hv

/-- Witness for C6 amended at concrete inputs. -/
theorem normalizeOrder_c6_amended_witness :
    fallbackParser "TEA" [] = [Entry.mk "chai" 1] ∧
    processAux ["chai"] [] [] [(none, "dog".data)] = processAux ["chai"] [] [] [] :=
  ⟨normalizeOrder_c6_amended.1,
   normalizeOrder_c6_amended.2 ["chai"] [] [] none "dog".data [] "dog"
     (by decide) (by decide)⟩

/-! Helper lemmas about the JSON-span extraction. -/

theorem dropToBrace_append (a t : List Char) (ha : lbrace ∉ a) :
    dropToBrace (a ++ lbrace :: t) = some (lbrace :: t) := by
  induction a with
  | nil => simp [dropToBrace]
  | cons c a ih =>
    have hc : ¬ c = lbrace := fun h => ha (h ▸ List.mem_cons_self _ _)
    simp only [List.cons_append, dropToBrace]
    rw [if_neg hc]
    exact ih (fun h => ha (List.mem_cons_of_mem _ h))

theorem takeToLastClose_none (cs : List Char) (hc : rbrace ∉ cs) :
    takeToLastClose cs = none := by
  induction cs with
  | nil => rfl
  | cons c rest ih =>
    have hc0 : ¬ c = rbrace := fun h => hc (h ▸ List.mem_cons_self _ _)
    have hr : takeToLastClose rest = none := ih (fun h => hc (List.mem_cons_of_mem _ h))
    simp only [takeToLastClose, hr]
    rw [if_neg hc0]

theorem takeToLastClose_append (b c : List Char) (hc : rbrace ∉ c) :
    takeToLastClose (b ++ rbrace :: c) = some (b ++ [rbrace]) := by
  induction b with
  | nil =>
    simp only [List.nil_append, takeToLastClose, takeToLastClose_none c hc]
    simp
  | cons c0 b ih =>
    simp only [List.cons_append, takeToLastClose, List.append_eq, ih]

/-- C7 counterexample: the code captures greedily from the first left brace
to the last right brace of the reply, not the first balanced object span.
On a reply holding two objects the greedy span covers both, the spec-order
balanced span only the first; downstream, the greedy over-capture makes the
JSON parse of such a reply fail (the response chain throws) although the
reply starts with a perfectly balanced items object. -/
theorem jsonSpan_counterexample_c7 :
    extractJsonSpanS "\x7b\"a\":1\x7d \x7b\"b\":2\x7d" =
      some "\x7b\"a\":1\x7d \x7b\"b\":2\x7d" ∧
    firstBalancedSpanS "\x7b\"a\":1\x7d \x7b\"b\":2\x7d" = some "\x7b\"a\":1\x7d" ∧
    extractJsonSpanS "\x7b\"a\":1\x7d \x7b\"b\":2\x7d" ≠
      firstBalancedSpanS "\x7b\"a\":1\x7d \x7b\"b\":2\x7d" ∧
    llmChain "\x7b\"items\":[]\x7d \x7b\x7d" ["chai"] = none ∧
    firstBalancedSpanS "\x7b\"items\":[]\x7d \x7b\x7d" = some "\x7b\"items\":[]\x7d" := by
  refine ⟨by decide, by decide, by decide, by decide, by decide⟩

/-- C7 amended: the extraction of parseInput is the greedy regex match — on
any reply of the shape a ++ lbrace :: b ++ rbrace :: c with no left brace
in a and no right brace in c, the captured span runs from that first left
brace across everything (b may hold further braces) to the last right brace
of the reply. -/
theorem jsonSpan_c7_amended (a b c : List Char) (ha : lbrace ∉ a) (hc : rbrace ∉ c) :
    extractJsonSpanL (a ++ lbrace :: (b ++ rbrace :: c)) =
      some (lbrace :: (b ++ [rbrace])) := by
  unfold extractJsonSpanL
  rw [dropToBrace_append a _ ha]
  simp only [takeToLastClose_append b c hc]

/-- Witness for C7 amended at concrete inputs. -/
theorem jsonSpan_c7_amended_witness :
    extractJsonSpanL ("xy".data ++ lbrace :: ("ab".data ++ rbrace :: "z".data)) =
      some (lbrace :: ("ab".data ++ [rbrace])) :=
  jsonSpan_c7_amended "xy".data "ab".data "z".data (by decide) (by decide)

example : llmChain "\x7b\"items\": []\x7d" ["chai"] = some [] := by decide
example : parseInput "just checking" [("chai", 10)] (FetchOutcome.ok "\x7b\"items\": []\x7d") =
    (PResult.ok [], true) := by decide
example : parseInput "just checking" [("chai", 10)]
    (FetchOutcome.ok "\x7b\"items\":[\x7b\"item\":\"chai\",\"quantity\":2.5\x7d]\x7d") =
    (PResult.ok [⟨"chai", mkRat 5 2⟩], true) := by decide
example : parseInput "just checking" [("chai", 10)]
    (FetchOutcome.ok "\x7b\"items\":[\x7b\"item\":\"chai\",\"quantity\":2\x7d,\x7b\"item\":\"chai\",\"quantity\":3\x7d]\x7d") =
    (PResult.ok [⟨"chai", 2⟩, ⟨"chai", 3⟩], true) := by decide
example : parseInput "just checking" [("chai", 10)] FetchOutcome.fail = (PResult.err, true) := by decide
example : extractJsonSpanS "x\x7ba\x7d \x7bb\x7dy" = some "\x7ba\x7d \x7bb\x7d" := by decide
example : firstBalancedSpanS "x\x7ba\x7d \x7bb\x7dy" = some "\x7ba\x7d" := by decide
